import Mathlib

set_option maxRecDepth 100000

/-!
Shallow embedding of `Projects/mathematica-migration/symbol_dependency.py`
(Mathematica symbol dependency graph builder) and proofs about the claims of
its specification.

Conventions:
* Python dicts are modelled as insertion-ordered association lists
  `List (String × _)`; Python sets as `Finset String`.
* The mutable update performed by `find_undefined` (it stores its result in
  `self._undefined`) is modelled by returning the updated graph next to the
  result.
* Loops whose termination depends on a growing visited set are modelled with
  an explicit fuel parameter chosen `≥` the loop's real bound; lemmas below
  prove the result is independent of the fuel beyond that bound.
-/

/-- The `BUILTINS` set (symbol_dependency.py, lines 21-42). -/
def BUILTINS : List String := [
  "True", "False", "Null", "None", "Automatic", "All", "Infinity",
  "Pi", "E", "I",
  "Sin", "Cos", "Tan", "Exp", "Log", "Sqrt", "Abs", "Power",
  "Plus", "Times", "Divide", "Subtract",
  "List", "Table", "Map", "Apply", "Select", "Cases", "Range",
  "Part", "First", "Last", "Rest", "Most", "Length", "Flatten",
  "If", "Which", "Switch", "Do", "For", "While",
  "Module", "Block", "With", "Function",
  "Graphics", "Graphics3D", "Plot", "Plot3D", "Show",
  "RGBColor", "Hue", "GrayLevel", "Opacity",
  "Point", "Line", "Polygon", "Circle", "Disk", "Text",
  "NDSolve", "DSolve", "Solve", "FindRoot", "FindMinimum", "FindMaximum",
  "Print", "Export", "Import", "Clear", "Remove"]

/-- The per-symbol record stored by `DependencyGraph.add_definition`
(lines 98-103): a cell number and a dependency list. -/
structure GraphInfo where
  cell : Nat
  depends_on : List String
deriving DecidableEq, Repr

/-- The `DependencyGraph` dataclass (lines 91-96): an insertion-ordered
definition table plus the `_undefined` cache set (initially empty). -/
structure DependencyGraph where
  definitions : List (String × GraphInfo)
  _undefined : Finset String
deriving DecidableEq

/-- Association-list lookup, modelling Python dict key access
(first binding for the key; in a dict keys are unique). -/
def lookupTbl {α : Type} (s : String) : List (String × α) → Option α
  | [] => none
  | (k, v) :: rest => if k = s then some v else lookupTbl s rest

/-- Python dict assignment `d[k] = v`: replace in place if present, else
append (dicts preserve insertion order). -/
def updateTbl {α : Type} (s : String) (v : α) : List (String × α) → List (String × α)
  | [] => [(s, v)]
  | (k, w) :: rest => if k = s then (s, v) :: rest else (k, w) :: updateTbl s v rest

/-- `DependencyGraph.add_definition` (lines 98-103). -/
def add_definition (g : DependencyGraph) (symbol : String) (cell : Nat)
    (depends_on : List String) : DependencyGraph :=
  let info : GraphInfo := ⟨cell, depends_on.filter (fun d => !(BUILTINS.contains d))⟩
  { g with definitions := updateTbl symbol info g.definitions }

/-- `DependencyGraph.find_undefined` (lines 105-113).  The Python method
returns the set **and** assigns it to `self._undefined`; the state change is
modelled by returning the updated graph as the second component. -/
def find_undefined (g : DependencyGraph) : Finset String × DependencyGraph :=
  let all_deps := g.definitions.foldl (fun acc p => acc ∪ p.2.depends_on.toFinset) ∅
  let defined := (g.definitions.map Prod.fst).toFinset
  let u := (all_deps \ defined) \ BUILTINS.toFinset
  (u, { g with _undefined := u })

/-- The `while` loop of `DependencyGraph.trace_to_root` (lines 115-134),
with explicit fuel.  Each full iteration adds one previously unvisited
symbol to `visited`, so any fuel `≥ defs.length + 1` is enough (proved in
`traceAux_fuel_irrelevant` below). -/
def traceAux (defs : List (String × GraphInfo)) :
    Nat → String → List String → Finset String → List String
  | 0, _, chain, _ => chain
  | fuel + 1, current, chain, visited =>
    match lookupTbl current defs with
    | none => chain
    | some info =>
      match info.depends_on with
      | [] => chain
      | next :: _ =>
        if next ∈ visited then chain ++ [next ++ " (CIRCULAR)"]
        else traceAux defs fuel next (chain ++ [next]) (insert next visited)

/-- `DependencyGraph.trace_to_root` (lines 115-134). -/
def trace_to_root (g : DependencyGraph) (symbol : String) : List String :=
  traceAux g.definitions (g.definitions.length + 1) symbol [symbol] {symbol}

/-- The recursive helper `find_dependents` of
`DependencyGraph.count_dependents` (lines 140-144): iterate over all
definitions; whenever one depends on `sym` and was not seen yet, add it and
recurse from it (sharing the accumulated set, like the Python closure).
Fuel decreases only on the inner recursion; any fuel `≥` the number of keys
not yet in `acc`, plus one, is enough (see `findDependents_char`). -/
def findDependents (defs : List (String × GraphInfo)) :
    Nat → List (String × GraphInfo) → String → Finset String → Finset String
  | 0, _, _, acc => acc
  | fuel + 1, todo, sym, acc =>
    todo.foldl
      (fun acc2 p =>
        if sym ∈ p.2.depends_on ∧ p.1 ∉ acc2 then
          findDependents defs fuel defs p.1 (insert p.1 acc2)
        else acc2)
      acc

/-- The final `dependents` set computed by `count_dependents`. -/
def dependentsSet (defs : List (String × GraphInfo)) (symbol : String) : Finset String :=
  findDependents defs (defs.length + 1) defs symbol ∅

/-- `DependencyGraph.count_dependents` (lines 136-147). -/
def count_dependents (g : DependencyGraph) (symbol : String) : Nat :=
  (dependentsSet g.definitions symbol).card

/-- The defined symbol names, as a finite set. -/
def keysOf (defs : List (String × GraphInfo)) : Finset String :=
  (defs.map Prod.fst).toFinset

/-- Direct reverse-dependency edge: `depEdge defs a b` holds when the
definition of `b` lists `a` among its dependencies (so `b` depends
directly on `a`). -/
def depEdge (defs : List (String × GraphInfo)) (a b : String) : Prop :=
  ∃ i, (b, i) ∈ defs ∧ a ∈ i.depends_on

example : lookupTbl "a" [("a", (⟨1, ["b"]⟩ : GraphInfo))] = some ⟨1, ["b"]⟩ := by decide

example :
    count_dependents ⟨[("root", ⟨1, []⟩), ("a", ⟨2, ["root"]⟩),
      ("b", ⟨3, ["root"]⟩), ("c", ⟨4, ["a"]⟩)], ∅⟩ "root" = 3 := by decide

example :
    count_dependents ⟨[("a", ⟨1, ["b"]⟩), ("b", ⟨2, ["a"]⟩)], ∅⟩ "a" = 2 := by decide

example :
    trace_to_root ⟨[("p", ⟨1, ["q"]⟩), ("q", ⟨2, ["p"]⟩)], ∅⟩ "p"
      = ["p", "q", "p (CIRCULAR)"] := by decide

example :
    trace_to_root ⟨[("a", ⟨1, []⟩), ("b", ⟨2, ["a"]⟩), ("c", ⟨3, ["b"]⟩)], ∅⟩ "c"
      = ["c", "b", "a"] := by decide

example :
    "x" ∈ (find_undefined ⟨[("y", ⟨1, ["x"]⟩)], ∅⟩).1
      ∧ (find_undefined ⟨[("y", ⟨1, ["x"]⟩)], ∅⟩).1.card = 1 := by decide

/-! ### Frame behaviour of the three queries (claim C3) -/

/-- A one-definition graph used to exhibit the `_undefined` cache mutation. -/
def gCache : DependencyGraph := ⟨[("a", ⟨1, ["b"]⟩)], ∅⟩

/-! ### Generic lemmas about the `find_dependents` recursion (claims C2, C8) -/

theorem fd_zero (defs todo : List (String × GraphInfo)) (sym : String)
    (acc : Finset String) : findDependents defs 0 todo sym acc = acc := rfl

theorem fd_nil (defs : List (String × GraphInfo)) (fuel : Nat) (sym : String)
    (acc : Finset String) : findDependents defs (fuel + 1) [] sym acc = acc := rfl

theorem fd_cons (defs : List (String × GraphInfo)) (fuel : Nat)
    (p : String × GraphInfo) (rest : List (String × GraphInfo)) (sym : String)
    (acc : Finset String) :
    findDependents defs (fuel + 1) (p :: rest) sym acc =
      if sym ∈ p.2.depends_on ∧ p.1 ∉ acc then
        findDependents defs (fuel + 1) rest sym
          (findDependents defs fuel defs p.1 (insert p.1 acc))
      else findDependents defs (fuel + 1) rest sym acc := by
  by_cases h : sym ∈ p.2.depends_on ∧ p.1 ∉ acc
  · simp only [findDependents, List.foldl_cons, if_pos h]
  · simp only [findDependents, List.foldl_cons, if_neg h]

theorem fd_mono (defs : List (String × GraphInfo)) :
    ∀ fuel todo sym acc, acc ⊆ findDependents defs fuel todo sym acc := by
  intro fuel
  induction fuel with
  | zero => intro todo sym acc; rw [fd_zero]
  | succ n ih =>
    intro todo
    induction todo with
    | nil => intro sym acc; rw [fd_nil]
    | cons p rest ihr =>
      intro sym acc
      rw [fd_cons]
      by_cases h : sym ∈ p.2.depends_on ∧ p.1 ∉ acc
      · rw [if_pos h]
        exact ((Finset.subset_insert _ _).trans (ih _ _ _)).trans (ihr _ _)
      · rw [if_neg h]
        exact ihr _ _

theorem fd_sub (defs : List (String × GraphInfo)) :
    ∀ fuel todo sym acc, (∀ p ∈ todo, p ∈ defs) →
      findDependents defs fuel todo sym acc ⊆ acc ∪ keysOf defs := by
  intro fuel
  induction fuel with
  | zero => intro todo sym acc _; rw [fd_zero]; exact Finset.subset_union_left
  | succ n ih =>
    intro todo
    induction todo with
    | nil => intro sym acc _; rw [fd_nil]; exact Finset.subset_union_left
    | cons p rest ihr =>
      intro sym acc htodo
      have hp : p ∈ defs := htodo p (List.mem_cons_self _ _)
      have hp1 : p.1 ∈ keysOf defs := by
        simp only [keysOf, List.mem_toFinset, List.mem_map]
        exact ⟨p, hp, rfl⟩
      rw [fd_cons]
      by_cases h : sym ∈ p.2.depends_on ∧ p.1 ∉ acc
      · rw [if_pos h]
        have h1 : findDependents defs n defs p.1 (insert p.1 acc) ⊆
            insert p.1 acc ∪ keysOf defs := ih defs p.1 _ (fun q hq => hq)
        have h2 : insert p.1 acc ∪ keysOf defs ⊆ acc ∪ keysOf defs := by
          intro x hx
          rcases Finset.mem_union.mp hx with hx | hx
          · rcases Finset.mem_insert.mp hx with rfl | hx
            · exact Finset.mem_union_right _ hp1
            · exact Finset.mem_union_left _ hx
          · exact Finset.mem_union_right _ hx
        refine (ihr sym _ (fun q hq => htodo q (List.mem_cons_of_mem _ hq))).trans ?_
        exact Finset.union_subset (h1.trans h2) Finset.subset_union_right
      · rw [if_neg h]
        exact ihr sym acc (fun q hq => htodo q (List.mem_cons_of_mem _ hq))

theorem fd_sound (defs : List (String × GraphInfo)) :
    ∀ fuel todo sym acc, (∀ p ∈ todo, p ∈ defs) →
      ∀ x ∈ findDependents defs fuel todo sym acc,
        x ∈ acc ∨ Relation.TransGen (depEdge defs) sym x := by
  intro fuel
  induction fuel with
  | zero => intro todo sym acc _ x hx; rw [fd_zero] at hx; exact Or.inl hx
  | succ n ih =>
    intro todo
    induction todo with
    | nil => intro sym acc _ x hx; rw [fd_nil] at hx; exact Or.inl hx
    | cons p rest ihr =>
      intro sym acc htodo x hx
      have hp : p ∈ defs := htodo p (List.mem_cons_self _ _)
      have hrest : ∀ q ∈ rest, q ∈ defs := fun q hq => htodo q (List.mem_cons_of_mem _ hq)
      rw [fd_cons] at hx
      by_cases h : sym ∈ p.2.depends_on ∧ p.1 ∉ acc
      · rw [if_pos h] at hx
        have hedge : depEdge defs sym p.1 := ⟨p.2, hp, h.1⟩
        rcases ihr sym _ hrest x hx with hx1 | hx1
        · rcases ih defs p.1 _ (fun q hq => hq) x hx1 with hx2 | hx2
          · rcases Finset.mem_insert.mp hx2 with rfl | hx3
            · exact Or.inr (Relation.TransGen.single hedge)
            · exact Or.inl hx3
          · exact Or.inr (Relation.TransGen.head hedge hx2)
        · exact Or.inr hx1
      · rw [if_neg h] at hx
        exact ihr sym acc hrest x hx

theorem fd_closed (defs : List (String × GraphInfo)) :
    ∀ fuel todo sym acc, (∀ p ∈ todo, p ∈ defs) →
      (keysOf defs \ acc).card + 1 ≤ fuel →
      (∀ p ∈ todo, sym ∈ p.2.depends_on → p.1 ∈ findDependents defs fuel todo sym acc)
      ∧ (∀ x ∈ findDependents defs fuel todo sym acc, x ∉ acc →
          ∀ q ∈ defs, x ∈ q.2.depends_on → q.1 ∈ findDependents defs fuel todo sym acc) := by
  intro fuel
  induction fuel with
  | zero => intro todo sym acc _ hf; omega
  | succ n ih =>
    intro todo
    induction todo with
    | nil =>
      intro sym acc _ _
      refine ⟨fun p hp => absurd hp (List.not_mem_nil p), ?_⟩
      intro x hx hxacc
      rw [fd_nil] at hx
      exact absurd hx hxacc
    | cons p rest ihr =>
      intro sym acc htodo hfuel
      have hp : p ∈ defs := htodo p (List.mem_cons_self _ _)
      have hrest : ∀ q ∈ rest, q ∈ defs := fun q hq => htodo q (List.mem_cons_of_mem _ hq)
      have hp1 : p.1 ∈ keysOf defs := by
        simp only [keysOf, List.mem_toFinset, List.mem_map]
        exact ⟨p, hp, rfl⟩
      by_cases hc : sym ∈ p.2.depends_on ∧ p.1 ∉ acc
      · have hmem : p.1 ∈ keysOf defs \ acc := Finset.mem_sdiff.mpr ⟨hp1, hc.2⟩
        have hcard1 : (keysOf defs \ insert p.1 acc).card + 1 ≤ n := by
          have hsub : keysOf defs \ insert p.1 acc ⊆ keysOf defs \ acc :=
            Finset.sdiff_subset_sdiff (le_refl _) (Finset.subset_insert _ _)
          have hss : keysOf defs \ insert p.1 acc ⊂ keysOf defs \ acc := by
            refine (Finset.ssubset_iff_of_subset hsub).mpr ?_
            exact ⟨p.1, hmem, by simp⟩
          have := Finset.card_lt_card hss
          omega
        have hnested := ih defs p.1 (insert p.1 acc) (fun q hq => hq) hcard1
        have hmono1 : insert p.1 acc ⊆ findDependents defs n defs p.1 (insert p.1 acc) :=
          fd_mono defs n defs p.1 _
        have hcard2 :
            (keysOf defs \ findDependents defs n defs p.1 (insert p.1 acc)).card + 1 ≤ n + 1 := by
          have hsub : keysOf defs \ findDependents defs n defs p.1 (insert p.1 acc)
              ⊆ keysOf defs \ acc :=
            Finset.sdiff_subset_sdiff (le_refl _) ((Finset.subset_insert _ _).trans hmono1)
          have := Finset.card_le_card hsub
          omega
        have hcont := ihr sym (findDependents defs n defs p.1 (insert p.1 acc)) hrest hcard2
        have hmono2 : findDependents defs n defs p.1 (insert p.1 acc)
            ⊆ findDependents defs (n + 1) rest sym
                (findDependents defs n defs p.1 (insert p.1 acc)) :=
          fd_mono defs _ _ _ _
        rw [fd_cons, if_pos hc]
        constructor
        · intro q hq _
          rcases List.mem_cons.mp hq with rfl | hq2
          · exact hmono2 (hmono1 (Finset.mem_insert_self _ _))
          · exact hcont.1 q hq2 (by assumption)
        · intro x hx hxacc q hqdefs hqdep
          by_cases hx1 : x ∈ findDependents defs n defs p.1 (insert p.1 acc)
          · by_cases hx2 : x ∈ insert p.1 acc
            · have hxp : x = p.1 := by
                rcases Finset.mem_insert.mp hx2 with h | h
                · exact h
                · exact absurd h hxacc
              subst hxp
              exact hmono2 (hnested.1 q hqdefs hqdep)
            · exact hmono2 (hnested.2 x hx1 hx2 q hqdefs hqdep)
          · exact hcont.2 x hx hx1 q hqdefs hqdep
      · rw [fd_cons, if_neg hc]
        have hres := ihr sym acc hrest hfuel
        constructor
        · intro q hq hdep
          rcases List.mem_cons.mp hq with rfl | hq2
          · have : q.1 ∈ acc := by
              by_contra hnot
              exact hc ⟨hdep, hnot⟩
            exact fd_mono defs _ _ _ _ this
          · exact hres.1 q hq2 hdep
        · exact hres.2

theorem fd_char (defs : List (String × GraphInfo)) (sym : String) :
    ∀ fuel, (keysOf defs).card + 1 ≤ fuel →
      ∀ x, x ∈ findDependents defs fuel defs sym ∅ ↔
        Relation.TransGen (depEdge defs) sym x := by
  intro fuel hfuel x
  constructor
  · intro hx
    rcases fd_sound defs fuel defs sym ∅ (fun q hq => hq) x hx with h | h
    · exact absurd h (Finset.not_mem_empty x)
    · exact h
  · intro htg
    have hcard : (keysOf defs \ (∅ : Finset String)).card + 1 ≤ fuel := by
      rw [Finset.sdiff_empty]
      exact hfuel
    have hcl := fd_closed defs fuel defs sym ∅ (fun q hq => hq) hcard
    induction htg with
    | single h =>
      rcases h with ⟨i, hmem, hdep⟩
      exact hcl.1 _ hmem hdep
    | tail htg2 h ih2 =>
      rcases h with ⟨i, hmem, hdep⟩
      exact hcl.2 _ ih2 (Finset.not_mem_empty _) _ hmem hdep

theorem dependentsSet_char (defs : List (String × GraphInfo)) (sym x : String) :
    x ∈ dependentsSet defs sym ↔ Relation.TransGen (depEdge defs) sym x := by
  have hcard : (keysOf defs).card + 1 ≤ defs.length + 1 := by
    have h1 : (keysOf defs).card ≤ (defs.map Prod.fst).length := List.toFinset_card_le _
    simp only [List.length_map] at h1
    omega
  exact fd_char defs sym (defs.length + 1) hcard x

/-- The cyclic two-symbol graph `a:[b]`, `b:[a]` used against claim C2. -/
def cycAB : DependencyGraph := ⟨[("a", ⟨1, ["b"]⟩), ("b", ⟨2, ["a"]⟩)], ∅⟩

/-- Claim C2, counterexample.  On the cyclic table `a:[b]`, `b:[a]` the query
`count_dependents("a")` returns 2 and the computed dependents set contains
`"a"` itself: the set of symbols *other than* `"a"` that depend on `"a"` has
size 1, so the count does **not** exclude the queried symbol when it lies on
a dependency cycle, refuting the claim as stated. -/
theorem claim2_counterexample :
    count_dependents cycAB "a" = 2
      ∧ "a" ∈ dependentsSet cycAB.definitions "a"
      ∧ ((dependentsSet cycAB.definitions "a").erase "a").card = 1 := by
  decide

/-- Claim C2, amended: `count_dependents(s)` returns the number of distinct
symbols that depend on `s` directly or transitively (reachability over
reverse dependency edges, each symbol visited at most once); `s` itself is
a member of the counted set exactly when `s` transitively depends on itself,
i.e. `s` is excluded unless `s` lies on a dependency cycle through itself. -/
theorem claim2_theorem (g : DependencyGraph) (s : String) :
    count_dependents g s = (dependentsSet g.definitions s).card
      ∧ (∀ x, x ∈ dependentsSet g.definitions s ↔
          Relation.TransGen (depEdge g.definitions) s x)
      ∧ ((s ∈ dependentsSet g.definitions s) ↔
          Relation.TransGen (depEdge g.definitions) s s) :=
  ⟨rfl, fun x => dependentsSet_char g.definitions s x, dependentsSet_char g.definitions s s⟩

/-- Claim C3, counterexample.  Executing the query `find_undefined` does
mutate the graph's internal state: it stores the computed set in the
`_undefined` field, so the graph after the query differs from the graph
before it. -/
theorem claim3_counterexample : (find_undefined gCache).2 ≠ gCache := by
  intro h
  have h2 := congrArg DependencyGraph._undefined h
  have hb : "b" ∈ (find_undefined gCache).2._undefined := by decide
  rw [h2] at hb
  exact absurd hb (by decide)

/-- Claim C3, amended: the definition table is read-only after construction —
no query changes `definitions`, and the query results depend only on
`definitions` — but `find_undefined` does mutate internal state: it caches
its result in the `_undefined` field. -/
theorem claim3_theorem (g : DependencyGraph) (s : String) (u : Finset String) :
    (find_undefined { g with _undefined := u }).1 = (find_undefined g).1
      ∧ (find_undefined g).2.definitions = g.definitions
      ∧ (find_undefined g).2._undefined = (find_undefined g).1
      ∧ trace_to_root { g with _undefined := u } s = trace_to_root g s
      ∧ count_dependents { g with _undefined := u } s = count_dependents g s :=
  ⟨rfl, rfl, rfl, rfl, rfl⟩

/-! ### Lemmas about `trace_to_root` (claim C8) -/

/-- Boolean test for one list being a prefix of another (used both for the
literal scans of the parser and for recognising the circular marker). -/
def startsList : List Char → List Char → Bool
  | [], _ => true
  | _ :: _, [] => false
  | p :: ps, c :: cs => p = c && startsList ps cs

theorem startsList_self_append (p r : List Char) : startsList p (p ++ r) = true := by
  induction p with
  | nil => rfl
  | cons c cs ih => simp [startsList, ih]

/-- Does the string end with the circular marker tail " (CIRCULAR)"? -/
def hasMarkerTail (s : String) : Bool :=
  startsList (" (CIRCULAR)").toList.reverse s.toList.reverse

theorem hasMarkerTail_append (s : String) :
    hasMarkerTail (s ++ " (CIRCULAR)") = true := by
  have h : (s ++ " (CIRCULAR)").toList = s.toList ++ (" (CIRCULAR)").toList := by
    simp [String.toList, String.data_append]
  rw [hasMarkerTail, h, List.reverse_append]
  exact startsList_self_append _ _

theorem lookupTbl_mem {α : Type} (defs : List (String × α)) (c : String) (info : α)
    (h : lookupTbl c defs = some info) : (c, info) ∈ defs := by
  induction defs with
  | nil => simp [lookupTbl] at h
  | cons p rest ih =>
    rw [lookupTbl] at h
    by_cases hp : p.1 = c
    · rw [if_pos hp] at h
      obtain ⟨k, w⟩ := p
      have hk : k = c := hp
      have hw : w = info := by injection h
      subst hk hw
      exact List.mem_cons_self _ _
    · rw [if_neg hp] at h
      exact List.mem_cons_of_mem _ (ih h)

theorem lookupTbl_eq_none {α : Type} (defs : List (String × α)) (c : String)
    (h : c ∉ defs.map Prod.fst) : lookupTbl c defs = none := by
  induction defs with
  | nil => rfl
  | cons p rest ih =>
    rw [lookupTbl]
    simp only [List.map_cons, List.mem_cons] at h
    push_neg at h
    rw [if_neg (Ne.symm h.1)]
    exact ih h.2

theorem traceAux_none (defs : List (String × GraphInfo)) (fuel : Nat)
    (c : String) (ch : List String) (v : Finset String)
    (hl : lookupTbl c defs = none) :
    traceAux defs (fuel + 1) c ch v = ch := by
  simp [traceAux, hl]

theorem traceAux_some_nil (defs : List (String × GraphInfo)) (fuel : Nat)
    (c : String) (ch : List String) (v : Finset String) (info : GraphInfo)
    (hl : lookupTbl c defs = some info) (hd : info.depends_on = []) :
    traceAux defs (fuel + 1) c ch v = ch := by
  simp [traceAux, hl, hd]

theorem traceAux_some_cons (defs : List (String × GraphInfo)) (fuel : Nat)
    (c : String) (ch : List String) (v : Finset String) (info : GraphInfo)
    (next : String) (tl : List String)
    (hl : lookupTbl c defs = some info) (hd : info.depends_on = next :: tl) :
    traceAux defs (fuel + 1) c ch v =
      if next ∈ v then ch ++ [next ++ " (CIRCULAR)"]
      else traceAux defs fuel next (ch ++ [next]) (insert next v) := by
  simp [traceAux, hl, hd]

theorem traceAux_stuck (defs : List (String × GraphInfo)) (c : String)
    (h : lookupTbl c defs = none) :
    ∀ fuel ch v, traceAux defs fuel c ch v = ch := by
  intro fuel ch v
  cases fuel with
  | zero => rfl
  | succ m => exact traceAux_none defs m c ch v h

theorem traceAux_fuel (defs : List (String × GraphInfo)) :
    ∀ n f₁ f₂ c ch v, (keysOf defs \ v).card ≤ n → n < f₁ → n < f₂ →
      traceAux defs f₁ c ch v = traceAux defs f₂ c ch v := by
  intro n
  induction n with
  | zero =>
    intro f₁ f₂ c ch v hcard h1 h2
    cases f₁ with
    | zero => omega
    | succ m₁ =>
      cases f₂ with
      | zero => omega
      | succ m₂ =>
        cases hl : lookupTbl c defs with
        | none => rw [traceAux_none defs m₁ c ch v hl, traceAux_none defs m₂ c ch v hl]
        | some info =>
          cases hd : info.depends_on with
          | nil =>
            rw [traceAux_some_nil defs m₁ c ch v info hl hd,
              traceAux_some_nil defs m₂ c ch v info hl hd]
          | cons next tl =>
            rw [traceAux_some_cons defs m₁ c ch v info next tl hl hd,
              traceAux_some_cons defs m₂ c ch v info next tl hl hd]
            by_cases hv : next ∈ v
            · rw [if_pos hv, if_pos hv]
            · rw [if_neg hv, if_neg hv]
              have hk : next ∉ keysOf defs := by
                intro hmem
                have hin : next ∈ keysOf defs \ v := Finset.mem_sdiff.mpr ⟨hmem, hv⟩
                have := Finset.card_pos.mpr ⟨next, hin⟩
                omega
              have hnone : lookupTbl next defs = none := by
                apply lookupTbl_eq_none
                intro hmap
                exact hk (List.mem_toFinset.mpr hmap)
              rw [traceAux_stuck defs next hnone, traceAux_stuck defs next hnone]
  | succ n ih =>
    intro f₁ f₂ c ch v hcard h1 h2
    cases f₁ with
    | zero => omega
    | succ m₁ =>
      cases f₂ with
      | zero => omega
      | succ m₂ =>
        cases hl : lookupTbl c defs with
        | none => rw [traceAux_none defs m₁ c ch v hl, traceAux_none defs m₂ c ch v hl]
        | some info =>
          cases hd : info.depends_on with
          | nil =>
            rw [traceAux_some_nil defs m₁ c ch v info hl hd,
              traceAux_some_nil defs m₂ c ch v info hl hd]
          | cons next tl =>
            rw [traceAux_some_cons defs m₁ c ch v info next tl hl hd,
              traceAux_some_cons defs m₂ c ch v info next tl hl hd]
            by_cases hv : next ∈ v
            · rw [if_pos hv, if_pos hv]
            · rw [if_neg hv, if_neg hv]
              by_cases hk : next ∈ keysOf defs
              · have hmem : next ∈ keysOf defs \ v := Finset.mem_sdiff.mpr ⟨hk, hv⟩
                have hsub : keysOf defs \ insert next v ⊆ keysOf defs \ v :=
                  Finset.sdiff_subset_sdiff (le_refl _) (Finset.subset_insert _ _)
                have hss : keysOf defs \ insert next v ⊂ keysOf defs \ v :=
                  (Finset.ssubset_iff_of_subset hsub).mpr ⟨next, hmem, by simp⟩
                have hlt := Finset.card_lt_card hss
                exact ih m₁ m₂ next (ch ++ [next]) (insert next v) (by omega)
                  (by omega) (by omega)
              · have hnone : lookupTbl next defs = none := by
                  apply lookupTbl_eq_none
                  intro hmap
                  exact hk (List.mem_toFinset.mpr hmap)
                rw [traceAux_stuck defs next hnone, traceAux_stuck defs next hnone]

/-- No dependency name in the table carries the circular-marker tail
(Mathematica identifiers never do; this rules out symbols that would be
indistinguishable from a marker entry). -/
def cleanDeps (defs : List (String × GraphInfo)) : Prop :=
  ∀ p ∈ defs, ∀ d ∈ p.2.depends_on, hasMarkerTail d = false

instance (defs : List (String × GraphInfo)) : Decidable (cleanDeps defs) := by
  unfold cleanDeps
  infer_instance

theorem traceAux_no_marker (defs : List (String × GraphInfo))
    (hclean : cleanDeps defs) :
    ∀ fuel c ch v, (∀ x ∈ ch, hasMarkerTail x = false) →
      ∀ x ∈ (traceAux defs fuel c ch v).dropLast, hasMarkerTail x = false := by
  intro fuel
  induction fuel with
  | zero =>
    intro c ch v hch x hx
    exact hch x ((List.dropLast_sublist _).subset hx)
  | succ m ih =>
    intro c ch v hch x hx
    cases hl : lookupTbl c defs with
    | none =>
      rw [traceAux_none defs m c ch v hl] at hx
      exact hch x ((List.dropLast_sublist _).subset hx)
    | some info =>
      cases hd : info.depends_on with
      | nil =>
        rw [traceAux_some_nil defs m c ch v info hl hd] at hx
        exact hch x ((List.dropLast_sublist _).subset hx)
      | cons next tl =>
        rw [traceAux_some_cons defs m c ch v info next tl hl hd] at hx
        have hnextclean : hasMarkerTail next = false := by
          have hmem := lookupTbl_mem defs c info hl
          exact hclean (c, info) hmem next (by rw [hd]; exact List.mem_cons_self _ _)
        by_cases hv : next ∈ v
        · rw [if_pos hv] at hx
          rw [List.dropLast_concat] at hx
          exact hch x hx
        · rw [if_neg hv] at hx
          refine ih next (ch ++ [next]) (insert next v) ?_ x hx
          intro y hy
          rcases List.mem_append.mp hy with hy | hy
          · exact hch y hy
          · rw [List.mem_singleton.mp hy]
            exact hnextclean

/-- The cyclic two-symbol graph `p:[q]`, `q:[p]` from the spec's cycle-safety
property. -/
def cycPQ : DependencyGraph := ⟨[("p", ⟨1, ["q"]⟩), ("q", ⟨2, ["p"]⟩)], ∅⟩

/-- Claim C8: on every definition table — cyclic ones included — both
`trace_to_root` and `count_dependents` terminate and never raise:
* the trace loop's result is already stable at fuel `|defs| + 1` (adding any
  extra fuel does not change it), i.e. the `while` loop exits;
* the circular marker can only be the final entry of the trace (a single
  marker appended at the point where the next symbol was already visited);
* the dependents count is bounded by the number of distinct defined symbols
  (each symbol is visited at most once — no double counting), and likewise
  the dependents set is already stable at fuel `|defs| + 1`;
* concretely, on `p:[q]`, `q:[p]` the trace is `["p", "q", "p (CIRCULAR)"]`
  and the count is `2` with `q` counted once. -/
theorem claim8_theorem (g : DependencyGraph) (s : String)
    (hclean : cleanDeps g.definitions) (hs : hasMarkerTail s = false) :
    (∀ extra, traceAux g.definitions (g.definitions.length + 1 + extra) s [s] {s}
        = trace_to_root g s)
    ∧ (∀ x ∈ (trace_to_root g s).dropLast, hasMarkerTail x = false)
    ∧ count_dependents g s ≤ (keysOf g.definitions).card
    ∧ (∀ extra x,
        (x ∈ findDependents g.definitions (g.definitions.length + 1 + extra)
            g.definitions s ∅)
          ↔ x ∈ dependentsSet g.definitions s)
    ∧ trace_to_root cycPQ "p" = ["p", "q", "p (CIRCULAR)"]
    ∧ count_dependents cycPQ "p" = 2 := by
  have hkeys : (keysOf g.definitions).card ≤ g.definitions.length := by
    have h1 := List.toFinset_card_le (g.definitions.map Prod.fst)
    simpa [keysOf] using h1
  refine ⟨?_, ?_, ?_, ?_, by decide, by decide⟩
  · intro extra
    apply traceAux_fuel g.definitions ((keysOf g.definitions).card)
    · exact Finset.card_le_card (Finset.sdiff_subset)
    · omega
    · omega
  · apply traceAux_no_marker g.definitions hclean
    intro x hx
    rw [List.mem_singleton.mp hx]
    exact hs
  · apply Finset.card_le_card
    have h := fd_sub g.definitions (g.definitions.length + 1) g.definitions s ∅
      (fun q hq => hq)
    rwa [Finset.empty_union] at h
  · intro extra x
    rw [fd_char g.definitions s (g.definitions.length + 1 + extra) (by omega) x]
    rw [dependentsSet_char g.definitions s x]

/-- Witness for claim C8 at the cyclic graph `p:[q]`, `q:[p]`. -/
theorem claim8_witness :
    cleanDeps cycPQ.definitions
      ∧ hasMarkerTail "p" = false
      ∧ count_dependents cycPQ "p" ≤ (keysOf cycPQ.definitions).card :=
  ⟨by decide, by decide, (claim8_theorem cycPQ "p" (by decide) (by decide)).2.2.1⟩

/-! ### The notebook parser: `parse_notebook_symbols` (lines 150-294)

The parser works on raw text, modelled as `List Char`.  The regular
expressions of the source are literal-plus-identifier patterns; they are
embedded as explicit scanners with Python `re.finditer` semantics
(left-to-right scan, non-overlapping matches, advance by one on failure).
Scanners that do not structurally descend on their input list carry a fuel
argument; every use site passes `length + 1`, which the scan can never
exhaust since each step consumes at least one character. -/

/-- First character class of the identifier pattern `[a-zA-Z_]`. -/
def identStart (c : Char) : Bool := c.isAlpha || c = '_'

/-- Continuation character class of the identifier pattern `[a-zA-Z0-9_]`. -/
def identChar (c : Char) : Bool := c.isAlphanum || c = '_'

/-- The literal `Cell[BoxData[` of the cell regex (line 180). -/
def cellPat : List Char := ("Cell[BoxData[").toList

/-- The literal head `RowBox[{"` of the candidate regex (line 219). -/
def rbHead : List Char := ("RowBox[\x7b\"").toList

/-- The quoted immediate-assignment token `"="` (lines 241, 247). -/
def eqTok : List Char := ("\"=\"").toList

/-- The quoted deferred-assignment token `":="` (lines 241-242). -/
def delayTok : List Char := ("\":=\"").toList

/-- The quoted Input tag `"Input"` (line 199). -/
def inputTok : List Char := ("\"Input\"").toList

/-- Positions of the non-overlapping left-to-right matches of a literal
pattern (Python `re.finditer` on a literal regex); on a match the scan
advances by the pattern length (at least one), otherwise by one. -/
def litMatchesFrom (pat : List Char) : Nat → List Char → Nat → List Nat
  | 0, _, _ => []
  | _ + 1, [], _ => []
  | fuel + 1, c :: rest, i =>
    if startsList pat (c :: rest) then
      i :: litMatchesFrom pat fuel ((c :: rest).drop (max 1 pat.length))
        (i + max 1 pat.length)
    else litMatchesFrom pat fuel rest (i + 1)

/-- All match positions of a literal pattern in `content`. -/
def litMatches (pat content : List Char) : List Nat :=
  litMatchesFrom pat (content.length + 1) content 0

/-- Python `str.find` for a literal pattern: index of the first match, or
`none` (Python returns `-1`). -/
def findSub (pat : List Char) : List Char → Nat → Option Nat
  | [], i => if pat.isEmpty then some i else none
  | l@(_ :: rest), i => if startsList pat l then some i else findSub pat rest (i + 1)

/-- Python `pat in s` substring test. -/
def hasSub (pat l : List Char) : Bool := (findSub pat l 0).isSome

/-- The bracket-depth loop locating a cell's end (lines 185-193): starting
inside `Cell[BoxData[` at depth 2, `[` increments and `]` decrements the
depth; the loop stops when the depth reaches 0 or the document ends.
Returns the final position and the final depth. -/
def cellScanAux : List Char → Nat → Nat → Nat × Nat
  | [], pos, depth => (pos, depth)
  | c :: rest, pos, depth =>
    if depth = 0 then (pos, depth)
    else
      cellScanAux rest (pos + 1)
        (if c = '[' then depth + 1 else if c = ']' then depth - 1 else depth)

/-- Scan for the end of the cell opened at `cs` (match end is
`cs + cellPat.length`, depth starts at 2). -/
def cellScan (content : List Char) (cs : Nat) : Nat × Nat :=
  cellScanAux (content.drop (cs + cellPat.length)) (cs + cellPat.length) 2

/-- The bracket-depth loop for one `RowBox` candidate (lines 226-236),
starting at depth 1 after the matched head, with the safety limit: after
each step, if more than 1000 characters lie between the candidate start
and the new position, the scan stops there. -/
def rowboxScanAux (start : Nat) : List Char → Nat → Nat → Nat
  | [], pos, _ => pos
  | c :: rest, pos, depth =>
    if depth = 0 then pos
    else
      let d2 := if c = '[' then depth + 1 else if c = ']' then depth - 1 else depth
      if pos + 1 - start > 1000 then pos + 1 else rowboxScanAux start rest (pos + 1) d2

/-- Python slice syntax `l[a:b]`. -/
def pySlice (l : List Char) (a b : Nat) : List Char := (l.drop a).take (b - a)

/-- Python `str.isdigit` (true on nonempty all-digit strings). -/
def pyIsDigit (s : String) : Bool := !s.isEmpty && s.toList.all (fun c => c.isDigit)

/-- 1-based line number of a position: newlines strictly before it, plus
one (`pos_to_line`, lines 171-172). -/
def pos_to_line (content : List Char) (pos : Nat) : Nat :=
  (content.take pos).count '\n' + 1

/-- Try the candidate regex `RowBox\[\{"([a-zA-Z_][a-zA-Z0-9_]*)",` at the
head of `l`: the literal head, an identifier (greedy run), then `",`.
Returns the captured symbol and the match length. -/
def matchRowBoxAt (l : List Char) : Option (String × Nat) :=
  if startsList rbHead l then
    match l.drop rbHead.length with
    | [] => none
    | c :: cs =>
      if identStart c then
        match cs.dropWhile identChar with
        | '"' :: ',' :: _ =>
          some (String.mk (c :: cs.takeWhile identChar),
            rbHead.length + 1 + (cs.takeWhile identChar).length + 2)
        | _ => none
      else none
  else none

/-- Non-overlapping left-to-right matches of the candidate regex inside a
cell: `(matchStart, symbol, matchEnd)` triples (line 221). -/
def rowboxMatchesFrom : Nat → List Char → Nat → List (Nat × String × Nat)
  | 0, _, _ => []
  | _ + 1, [], _ => []
  | fuel + 1, c :: rest, i =>
    match matchRowBoxAt (c :: rest) with
    | some (sym, len) =>
      (i, sym, i + len) :: rowboxMatchesFrom fuel ((c :: rest).drop (max 1 len))
        (i + max 1 len)
    | none => rowboxMatchesFrom fuel rest (i + 1)

/-- All candidate matches of a cell's text. -/
def rowboxMatches (cc : List Char) : List (Nat × String × Nat) :=
  rowboxMatchesFrom (cc.length + 1) cc 0

/-- The identifier tokens of a span: matches of `"([a-zA-Z_][a-zA-Z0-9_]*)"`
in scan order (line 252), with fuel. -/
def identTokensFrom : Nat → List Char → List String
  | 0, _ => []
  | _ + 1, [] => []
  | fuel + 1, q :: rest =>
    if q = '"' then
      match rest with
      | [] => []
      | c :: cs =>
        if identStart c then
          match cs.dropWhile identChar with
          | '"' :: rest2 =>
            String.mk (c :: cs.takeWhile identChar) :: identTokensFrom fuel rest2
          | _ => identTokensFrom fuel rest
        else identTokensFrom fuel rest
    else identTokensFrom fuel rest

/-- All identifier tokens of a span. -/
def identTokens (l : List Char) : List String :=
  identTokensFrom (l.length + 1) l

/-- The dependency-collection loop (lines 248-256): walk the identifier
tokens of the right-hand side, appending each one that is not a builtin,
not the defined symbol, not already collected and not purely numeric. -/
def depFold (sym : String) (toks : List String) : List String :=
  toks.foldl
    (fun deps dep =>
      if !(BUILTINS.contains dep) && dep != sym && !(deps.contains dep)
          && !(pyIsDigit dep) then
        deps ++ [dep]
      else deps)
    []

/-- Dependency extraction for an immediate assignment (lines 247-256):
find the first `"="`, take the identifier tokens after it, filter and
deduplicate.  When `"="` is absent (`find` returns `-1`) the list stays
empty. -/
def extractDeps (sym : String) (rb : List Char) : List String :=
  match findSub eqTok rb 0 with
  | none => []
  | some eqIdx => depFold sym (identTokens (rb.drop (eqIdx + 3)))

/-- Classification of one candidate span (lines 241-277): an assignment has
the `"="` token and not the `":="` token; a delayed (function) definition
has the `":="` token; builtin-headed candidates produce nothing.  Returns
the `type` string and the raw dependency list. -/
def classifyCand (sym : String) (rb : List Char) : Option (String × List String) :=
  let is_assignment := hasSub eqTok rb && !(hasSub delayTok rb)
  let is_delayed := hasSub delayTok rb
  if is_assignment && !(BUILTINS.contains sym) then
    some ("variable", extractDeps sym rb)
  else if is_delayed && !(BUILTINS.contains sym) then
    some ("function", [])
  else none

/-- One raw definition of `all_definitions` (lines 260-266 and 271-277). -/
structure PreDef where
  symbol : String
  pos : Nat
  depends_on : List String
  type : String
  line : Nat
deriving DecidableEq, Repr

/-- Process one candidate match inside a cell (lines 221-277): find the
matching bracket (bounded scan), slice the span, classify it, and build
the raw definition.  The stored dependency list is capped at 10 entries
(`deps[:10]`, line 263; the function branch stores the empty list, on
which the cap is a no-op). -/
def processCand (content : List Char) (cellStart : Nat) (cc : List Char)
    (m : Nat × String × Nat) : Option PreDef :=
  match classifyCand m.2.1
      (pySlice cc m.1 (rowboxScanAux m.1 (cc.drop m.2.2) m.2.2 1)) with
  | none => none
  | some (ty, deps) =>
    some ⟨m.2.1, cellStart + m.1, deps.take 10, ty, pos_to_line content (cellStart + m.1)⟩

/-- Extract the raw definitions of one input cell (lines 214-277). -/
def processCell (content : List Char) (cellStart cellEnd : Nat) : List PreDef :=
  let cc := pySlice content cellStart cellEnd
  (rowboxMatches cc).filterMap (processCand content cellStart cc)

/-- The input-cell collection loop (lines 181-208): for every match of
`Cell[BoxData[`, bracket-scan to the cell end; cells containing the
`"Input"` tag get the next 1-based index; the optional `cell_range`
filter drops cells whose index falls outside `(start, end)` but still
counts them. -/
def inputCellsAux (content : List Char) (range : Option (Int × Int)) :
    List Nat → Nat → List (Nat × Nat × Nat)
  | [], _ => []
  | cs :: rest, idx =>
    let e := (cellScan content cs).1
    if hasSub inputTok (pySlice content cs e) then
      match range with
      | some (a, b) =>
        if ((idx + 1 : Nat) : Int) < a || ((idx + 1 : Nat) : Int) > b then
          inputCellsAux content range rest (idx + 1)
        else (idx + 1, cs, e) :: inputCellsAux content range rest (idx + 1)
      | none => (idx + 1, cs, e) :: inputCellsAux content range rest (idx + 1)
    else inputCellsAux content range rest idx

/-- The retained input cells `(cellIndex, startPos, endPos)`. -/
def inputCells (content : List Char) (range : Option (Int × Int)) :
    List (Nat × Nat × Nat) :=
  inputCellsAux content range (litMatches cellPat content) 0

/-- `all_definitions` (lines 210-277): raw definitions of all retained
cells, in generation order. -/
def allDefinitions (content : List Char) (range : Option (Int × Int)) : List PreDef :=
  (inputCells content range).foldr
    (fun t acc => processCell content t.2.1 t.2.2 ++ acc) []

/-- Sort key of line 280 (`sort` is stable;
`List.insertionSort` is too). -/
def posLe (a b : PreDef) : Prop := a.pos ≤ b.pos

instance : DecidableRel posLe := fun a b => Nat.decLe a.pos b.pos

instance : IsTotal PreDef posLe := ⟨fun a b => Nat.le_total a.pos b.pos⟩

instance : IsTrans PreDef posLe := ⟨fun _ _ _ hab hbc => Nat.le_trans hab hbc⟩

/-- The sorted definition list of line 280. -/
def sortedDefinitions (content : List Char) (range : Option (Int × Int)) : List PreDef :=
  List.insertionSort posLe (allDefinitions content range)

/-- The per-symbol record of the parser's result table (lines 287-292). -/
structure SymInfo where
  cell : Nat
  depends_on : List String
  type : String
  line : Nat
deriving DecidableEq, Repr

/-- Build the final `symbols` entry for a definition assigned index `idx`
(lines 287-292). -/
def mkSymInfo (idx : Nat) (d : PreDef) : SymInfo :=
  ⟨idx, d.depends_on, d.type, d.line⟩

/-- The index-assignment loop (lines 284-292): `enumerate(all_definitions, 1)`
walks the sorted list; a symbol not yet in the table is inserted with the
current index; an already-present symbol is skipped — but the index counter
advances on every entry. -/
def assignDefs : List PreDef → Nat → List (String × SymInfo) → List (String × SymInfo)
  | [], _, table => table
  | d :: rest, idx, table =>
    assignDefs rest (idx + 1)
      (if (lookupTbl d.symbol table).isSome then table
       else table ++ [(d.symbol, mkSymInfo idx d)])

/-- `parse_notebook_symbols` (lines 150-294), from document text to the
symbol table. -/
def parse_notebook_symbols (content : List Char) (range : Option (Int × Int)) :
    List (String × SymInfo) :=
  assignDefs (sortedDefinitions content range) 1 []

/-! ### Concrete documents used by the claims -/

/-- A document whose second input cell re-defines `a` before `b` is first
defined. -/
def docRedef : List Char :=
  ("Cell[BoxData[RowBox[\x7b\"a\", \"=\", \"1\"\x7d]], \"Input\"]Cell[BoxData[RowBox[\x7b\"a\", \"=\", \"2\"\x7d]], \"Input\"]Cell[BoxData[RowBox[\x7b\"b\", \"=\", \"a\"\x7d]], \"Input\"]").toList

/-- A document whose single cell never closes its brackets (final depth 1,
scan hits end-of-document). -/
def docUnb : List Char :=
  ("Cell[BoxData[RowBox[\x7b\"a\", \"=\", \"b\"\x7d]], \"Input\"").toList

/-- A deferred definition whose head symbol `Sin` is a builtin. -/
def docSin : List Char :=
  ("Cell[BoxData[RowBox[\x7b\"Sin\", \"[\", \"x_\", \"]\", \":=\", \"x\"\x7d]], \"Input\"]").toList

/-- The candidate span of `docSin`. -/
def rbSin : List Char :=
  ("RowBox[\x7b\"Sin\", \"[\", \"x_\", \"]\", \":=\", \"x\"\x7d]").toList

/-- A deferred definition with a non-builtin head symbol `f`. -/
def rbFn : List Char :=
  ("RowBox[\x7b\"f\", \"[\", \"x_\", \"]\", \":=\", \"x\"\x7d]").toList

/-- An immediate assignment whose right-hand side has eleven distinct
non-builtin identifiers `k1 … k9, ka, kb`. -/
def c6rb : List Char :=
  ("RowBox[\x7b\"x\", \"=\", \"k1\", \"k2\", \"k3\", \"k4\", \"k5\", \"k6\", \"k7\", \"k8\", \"k9\", \"ka\", \"kb\"\x7d]").toList

/-- A document whose single candidate spans more than 1000 characters
before its closing bracket: the bounded scan stops 1001 characters after
the candidate start, truncating away the trailing `"c"`. -/
def docLong : List Char :=
  ("Cell[BoxData[RowBox[\x7b\"a\", \"=\", \"b\",").toList
    ++ List.replicate 1000 ' '
    ++ ("\"c\"\x7d]], \"Input\"]").toList

/-- Claim C4, counterexample.  In `docUnb` the cell's brackets never
rebalance (the scan ends at end-of-document with depth 1), yet the cell is
**not** discarded: the definition `a = b` inside it is extracted into the
table, refuting "no definitions are extracted from it". -/
theorem claim4_counterexample :
    (cellScan docUnb 0).1 = docUnb.length
      ∧ (cellScan docUnb 0).2 = 1
      ∧ lookupTbl "a" (parse_notebook_symbols docUnb none)
          = some ⟨1, ["b"], "variable", 1⟩ := by
  refine ⟨by decide, by decide, by decide⟩

/-- Claim C5, counterexample.  In `docLong` the candidate at position 13
hits the 1000-character safety bound (the scan stops at `13 + 1001`,
before the closing bracket), yet the candidate is **not** abandoned: it is
classified from the truncated span and contributes the definition
`a ↦ ["b"]` to the table, refuting "that candidate is abandoned …
contributing no definition to the output". -/
theorem claim5_counterexample :
    rowboxMatches (pySlice docLong 0 (cellScan docLong 0).1) = [(13, "a", 25)]
      ∧ rowboxScanAux 13 (docLong.drop 25) 25 1 = 13 + 1001
      ∧ docLong.length = 1051
      ∧ lookupTbl "a" (parse_notebook_symbols docLong none)
          = some ⟨1, ["b"], "variable", 1⟩ := by
  refine ⟨by decide, by decide, by decide, by decide⟩

/-- Claim C1, counterexample.  Parsing `docRedef` (symbol `a` defined
twice, then `b` once) gives `a` index 1 and `b` index 3: the re-definition
of `a` consumed index 2, so with N = 2 distinct symbols the assigned
indices `{1, 3}` are not a permutation of `1..2`. -/
theorem claim1_counterexample :
    (parse_notebook_symbols docRedef none).map (fun p => (p.1, p.2.cell))
        = [("a", 1), ("b", 3)]
      ∧ (parse_notebook_symbols docRedef none).length = 2
      ∧ ¬ ((parse_notebook_symbols docRedef none).map (fun p => p.2.cell)).Perm
          [1, 2] := by
  refine ⟨by decide, by decide, by decide⟩

/-- Claim C7, counterexample.  The deferred-assignment statement
`Sin[x_] := x` produces **no** definition: its head symbol is in
`BUILTINS`, so the candidate is skipped and the parsed table of `docSin`
is empty, refuting "for every deferred-assignment statement `f[params] :=
body`, extraction produces a definition for f". -/
theorem claim7_counterexample :
    hasSub delayTok rbSin = true
      ∧ classifyCand "Sin" rbSin = none
      ∧ parse_notebook_symbols docSin none = [] := by
  refine ⟨by decide, by decide, by decide⟩

/-- Claim C6, counterexample.  For the assignment `x = k1 … kb` with
eleven distinct qualifying identifiers, the dependency loop collects `kb`
exactly once, but the stored list is capped at 10 entries and `kb` is
dropped from it — so the extracted `dependsOn` does not contain every
qualifying identifier exactly once. -/
theorem claim6_counterexample :
    (extractDeps "x" c6rb).count "kb" = 1
      ∧ ((extractDeps "x" c6rb).take 10).count "kb" = 0
      ∧ ((extractDeps "x" c6rb).take 10).length = 10 := by
  refine ⟨by decide, by decide, by decide⟩

/-- The Python exception raised by `extract_definitions`. -/
inductive PyError where
  | notImplementedError (msg : String)
deriving DecidableEq, Repr

/-- `extract_definitions` (lines 86-88): the body is a single
`raise NotImplementedError("TODO: implement")`. -/
def extract_definitions (_expr : String) :
    Except PyError (List (String × List String × String)) :=
  Except.error (PyError.notImplementedError "TODO: implement")

/-- Claim C10: `extract_definitions` raises `NotImplementedError` on every
input and never returns a value. -/
theorem claim10_theorem (expr : String) :
    extract_definitions expr
        = Except.error (PyError.notImplementedError "TODO: implement")
      ∧ ∀ r, extract_definitions expr ≠ Except.ok r :=
  ⟨rfl, fun _ h => Except.noConfusion h⟩

/-! ### Amended claims about candidate classification and scanning -/

/-- Claim C7, amended: for every deferred-assignment candidate — a span
containing the `":="` token — whose head symbol is **not** a builtin,
classification yields kind `function` with an empty dependency list,
irrespective of everything else in the span; the raw definition built from
such a candidate carries the empty `dependsOn` and kind `function`. -/
theorem claim7_theorem (sym : String) (rb : List Char)
    (hdl : hasSub delayTok rb = true) (hb : BUILTINS.contains sym = false) :
    classifyCand sym rb = some ("function", [])
      ∧ ∀ (content cc : List Char) (cellStart : Nat) (m : Nat × String × Nat),
          m.2.1 = sym →
          pySlice cc m.1 (rowboxScanAux m.1 (cc.drop m.2.2) m.2.2 1) = rb →
          processCand content cellStart cc m
            = some ⟨sym, cellStart + m.1, [], "function",
                pos_to_line content (cellStart + m.1)⟩ := by
  have hb2 : sym ∉ BUILTINS := by simpa using hb
  have h1 : classifyCand sym rb = some ("function", []) := by
    unfold classifyCand
    simp [hdl, hb, hb2]
  refine ⟨h1, ?_⟩
  intro content cc cellStart m hm hrb
  unfold processCand
  rw [hm, hrb, h1]
  rfl

theorem rowboxScanAux_spec (start : Nat) :
    ∀ (l : List Char) (pos depth : Nat),
      pos ≤ rowboxScanAux start l pos depth
      ∧ rowboxScanAux start l pos depth ≤ pos + l.length
      ∧ (pos - start ≤ 1000 → rowboxScanAux start l pos depth - start ≤ 1001) := by
  intro l
  induction l with
  | nil =>
    intro pos depth
    refine ⟨le_refl _, by simp [rowboxScanAux], fun h => ?_⟩
    simp only [rowboxScanAux]
    omega
  | cons c rest ih =>
    intro pos depth
    rw [rowboxScanAux]
    by_cases h0 : depth = 0
    · rw [if_pos h0]
      exact ⟨le_refl _, by simp, fun h => by omega⟩
    · rw [if_neg h0]
      by_cases hlim : pos + 1 - start > 1000
      · rw [if_pos hlim]
        refine ⟨by omega, ?_, fun h => by omega⟩
        have hc := List.length_cons c rest
        omega
      · rw [if_neg hlim]
        have h3 := ih (pos + 1)
          (if c = '[' then depth + 1 else if c = ']' then depth - 1 else depth)
        refine ⟨by omega, by have := h3.2.1; simp at *; omega, fun h => ?_⟩
        exact h3.2.2 (by omega)

/-- Claim C5, amended: when a candidate's bracket scan hits the maximum
span bound, the scan stops within 1001 characters of the candidate start
(and never past the cell end); the candidate is **not** abandoned — it is
classified from the truncated span and may still contribute a definition —
and each candidate of a cell is processed independently of the others, so
the remaining candidates are still processed. -/
theorem claim5_theorem (cc : List Char) (start pos depth : Nat)
    (h : pos - start ≤ 1000) :
    rowboxScanAux start cc pos depth - start ≤ 1001
      ∧ rowboxScanAux start cc pos depth ≤ pos + cc.length
      ∧ ∀ (content : List Char) (cellStart cellEnd : Nat),
          processCell content cellStart cellEnd
            = (rowboxMatches (pySlice content cellStart cellEnd)).filterMap
                (processCand content cellStart (pySlice content cellStart cellEnd)) :=
  ⟨(rowboxScanAux_spec start cc pos depth).2.2 h,
    (rowboxScanAux_spec start cc pos depth).2.1,
    fun _ _ _ => rfl⟩

/-- Witness for claim C5 at the over-long candidate of `docLong`. -/
theorem claim5_witness :
    (25 : Nat) - 13 ≤ 1000
      ∧ rowboxScanAux 13 (docLong.drop 25) 25 1 - 13 ≤ 1001
      ∧ rowboxScanAux 13 (docLong.drop 25) 25 1 ≤ 25 + (docLong.drop 25).length :=
  ⟨by decide, (claim5_theorem (docLong.drop 25) 13 25 1 (by decide)).1,
    (claim5_theorem (docLong.drop 25) 13 25 1 (by decide)).2.1⟩

theorem startsList_length : ∀ (p l : List Char), startsList p l = true → p.length ≤ l.length := by
  intro p
  induction p with
  | nil => intro l _; simp
  | cons c cs ih =>
    intro l h
    cases l with
    | nil => simp [startsList] at h
    | cons b bs =>
      simp only [startsList, Bool.and_eq_true] at h
      have := ih bs h.2
      simp
      omega

theorem litMatchesFrom_bound (pat : List Char) :
    ∀ (fuel : Nat) (l : List Char) (i j : Nat),
      j ∈ litMatchesFrom pat fuel l i → i ≤ j ∧ j - i + pat.length ≤ l.length := by
  intro fuel
  induction fuel with
  | zero => intro l i j hj; simp [litMatchesFrom] at hj
  | succ n ih =>
    intro l i j hj
    cases l with
    | nil => simp [litMatchesFrom] at hj
    | cons c rest =>
      rw [litMatchesFrom] at hj
      by_cases hs : startsList pat (c :: rest) = true
      · rw [if_pos hs] at hj
        rcases List.mem_cons.mp hj with rfl | hj2
        · refine ⟨le_refl _, ?_⟩
          have := startsList_length pat (c :: rest) hs
          omega
        · have hb := ih _ _ _ hj2
          have hlen := List.length_drop (max 1 pat.length) (c :: rest)
          have hc := List.length_cons c rest
          omega
      · rw [if_neg hs] at hj
        have hb := ih _ _ _ hj
        have hc := List.length_cons c rest
        omega

theorem cellScanAux_spec :
    ∀ (l : List Char) (pos depth : Nat),
      pos ≤ (cellScanAux l pos depth).1
      ∧ (cellScanAux l pos depth).1 ≤ pos + l.length
      ∧ ((cellScanAux l pos depth).2 ≠ 0 → (cellScanAux l pos depth).1 = pos + l.length) := by
  intro l
  induction l with
  | nil =>
    intro pos depth
    exact ⟨le_refl _, by simp [cellScanAux], fun _ => by simp [cellScanAux]⟩
  | cons c rest ih =>
    intro pos depth
    rw [cellScanAux]
    by_cases h0 : depth = 0
    · rw [if_pos h0]
      refine ⟨le_refl _, by simp, fun h => absurd h0 h⟩
    · rw [if_neg h0]
      have h3 := ih (pos + 1)
        (if c = '[' then depth + 1 else if c = ']' then depth - 1 else depth)
      have hc := List.length_cons c rest
      refine ⟨by omega, by omega, fun h => ?_⟩
      have := h3.2.2 h
      omega

theorem inputCellsAux_mem (content : List Char) :
    ∀ (starts : List Nat) (idx cs : Nat),
      cs ∈ starts →
      hasSub inputTok (pySlice content cs (cellScan content cs).1) = true →
      ∃ k, (k, cs, (cellScan content cs).1) ∈ inputCellsAux content none starts idx := by
  intro starts
  induction starts with
  | nil => intro idx cs h; simp at h
  | cons c0 rest ih =>
    intro idx cs hmem hinput
    rcases List.mem_cons.mp hmem with rfl | hmem2
    · rw [inputCellsAux]
      rw [if_pos hinput]
      exact ⟨idx + 1, List.mem_cons_self _ _⟩
    · rw [inputCellsAux]
      by_cases hc : hasSub inputTok (pySlice content c0 (cellScan content c0).1) = true
      · rw [if_pos hc]
        obtain ⟨k, hk⟩ := ih (idx + 1) cs hmem2 hinput
        exact ⟨k, List.mem_cons_of_mem _ hk⟩
      · rw [if_neg hc]
        exact ih idx cs hmem2 hinput

/-- Claim C4, amended: when a cell's brackets never rebalance (the scan's
final depth is nonzero), the scan stops exactly at end-of-document — but
the cell is **not** discarded: it is treated as spanning to
end-of-document, and if its text carries the `"Input"` tag it is still
retained as an input cell (and its definitions extracted like any other
cell); scanning never fails. -/
theorem claim4_theorem (content : List Char) (cs : Nat)
    (hmem : cs ∈ litMatches cellPat content)
    (hunbal : (cellScan content cs).2 ≠ 0) :
    (cellScan content cs).1 = content.length
      ∧ (hasSub inputTok (pySlice content cs (cellScan content cs).1) = true →
          ∃ k, (k, cs, content.length) ∈ inputCells content none) := by
  have hb := litMatchesFrom_bound cellPat (content.length + 1) content 0 cs hmem
  have hlen := List.length_drop (cs + cellPat.length) content
  have hspec := cellScanAux_spec (content.drop (cs + cellPat.length))
    (cs + cellPat.length) 2
  have he : (cellScan content cs).1 = content.length := by
    have h3 := hspec.2.2 hunbal
    rw [cellScan]
    omega
  refine ⟨he, fun hinput => ?_⟩
  obtain ⟨k, hk⟩ := inputCellsAux_mem content (litMatches cellPat content) 0 cs
    hmem hinput
  rw [he] at hk
  exact ⟨k, hk⟩

/-- Witness for claim C4 at the unbalanced document `docUnb`. -/
theorem claim4_witness :
    (0 ∈ litMatches cellPat docUnb)
      ∧ (cellScan docUnb 0).2 ≠ 0
      ∧ (cellScan docUnb 0).1 = docUnb.length
      ∧ ∃ k, (k, 0, docUnb.length) ∈ inputCells docUnb none :=
  ⟨by decide, by decide, (claim4_theorem docUnb 0 (by decide) (by decide)).1,
    (claim4_theorem docUnb 0 (by decide) (by decide)).2 (by decide)⟩

/-! ### The dependency list of an immediate assignment (claim C6) -/

/-- Modelled from the spec: a right-hand-side identifier token qualifies as
a dependency when it is not a builtin, not the defined symbol itself and
not purely numeric. -/
def qualifiesB (sym dep : String) : Bool :=
  !(BUILTINS.contains dep) && dep != sym && !(pyIsDigit dep)

/-- Modelled from the spec: first-occurrence deduplication, insertion order
preserved. -/
def dedupFirst (l : List String) : List String :=
  l.foldl (fun acc d => if acc.contains d then acc else acc ++ [d]) []

theorem depFold_eq_aux (sym : String) :
    ∀ (toks : List String) (acc : List String),
      toks.foldl
        (fun deps dep =>
          if !(BUILTINS.contains dep) && dep != sym && !(deps.contains dep)
              && !(pyIsDigit dep) then
            deps ++ [dep]
          else deps)
        acc
      = (toks.filter (qualifiesB sym)).foldl
          (fun acc d => if acc.contains d then acc else acc ++ [d]) acc := by
  intro toks
  induction toks with
  | nil => intro acc; rfl
  | cons t rest ih =>
    intro acc
    by_cases hq : qualifiesB sym t = true
    · rw [List.filter_cons_of_pos hq]
      simp only [List.foldl_cons]
      have hstep :
          (if (!(BUILTINS.contains t) && t != sym && !(acc.contains t)
              && !(pyIsDigit t)) = true then acc ++ [t] else acc)
            = (if acc.contains t = true then acc else acc ++ [t]) := by
        unfold qualifiesB at hq
        revert hq
        cases BUILTINS.contains t <;> cases t != sym <;> cases acc.contains t <;>
          cases pyIsDigit t <;> simp
      rw [hstep]
      exact ih _
    · rw [List.filter_cons_of_neg (by simpa using hq)]
      simp only [List.foldl_cons]
      have hq2 : qualifiesB sym t = false := Bool.eq_false_iff.mpr hq
      have hstep :
          (if (!(BUILTINS.contains t) && t != sym && !(acc.contains t)
              && !(pyIsDigit t)) = true then acc ++ [t] else acc) = acc := by
        unfold qualifiesB at hq2
        revert hq2
        cases BUILTINS.contains t <;> cases t != sym <;> cases acc.contains t <;>
          cases pyIsDigit t <;> simp
      rw [hstep]
      exact ih acc

theorem depFold_eq (sym : String) (toks : List String) :
    depFold sym toks = dedupFirst (toks.filter (qualifiesB sym)) := by
  unfold depFold dedupFirst
  exact depFold_eq_aux sym toks []

theorem dedupAux_mem :
    ∀ (l acc : List String) (x : String),
      x ∈ l.foldl (fun acc d => if acc.contains d then acc else acc ++ [d]) acc
        ↔ x ∈ acc ∨ x ∈ l := by
  intro l
  induction l with
  | nil => intro acc x; simp
  | cons d rest ih =>
    intro acc x
    rw [List.foldl_cons]
    by_cases hc : acc.contains d = true
    · rw [if_pos hc]
      rw [ih]
      have hd : d ∈ acc := by simpa using hc
      constructor
      · rintro (h | h)
        · exact Or.inl h
        · exact Or.inr (List.mem_cons_of_mem _ h)
      · rintro (h | h)
        · exact Or.inl h
        · rcases List.mem_cons.mp h with rfl | h2
          · exact Or.inl hd
          · exact Or.inr h2
    · rw [if_neg hc]
      rw [ih]
      simp only [List.mem_append, List.mem_singleton, List.mem_cons]
      tauto

theorem dedupAux_nodup :
    ∀ (l acc : List String), acc.Nodup →
      (l.foldl (fun acc d => if acc.contains d then acc else acc ++ [d]) acc).Nodup := by
  intro l
  induction l with
  | nil => intro acc h; exact h
  | cons d rest ih =>
    intro acc h
    rw [List.foldl_cons]
    by_cases hc : acc.contains d = true
    · rw [if_pos hc]
      exact ih acc h
    · rw [if_neg hc]
      refine ih (acc ++ [d]) ?_
      have hd : d ∉ acc := by simpa using hc
      simp [List.nodup_append, h, hd]

/-- Claim C6, amended: for an immediate assignment, the dependency list
collected from the right-hand side is exactly the first-occurrence
deduplication of its qualifying identifier tokens (not builtin, not the
symbol itself, not numeric), in insertion order; it has no duplicates, so
each collected identifier appears exactly once; the **stored** list is the
first 10 of these — qualifying identifiers beyond the tenth distinct one
are dropped by the cap. -/
theorem claim6_theorem (sym : String) (rb : List Char) (eqIdx : Nat)
    (heq : findSub eqTok rb 0 = some eqIdx) :
    extractDeps sym rb
        = dedupFirst ((identTokens (rb.drop (eqIdx + 3))).filter (qualifiesB sym))
      ∧ (extractDeps sym rb).Nodup
      ∧ (∀ d ∈ extractDeps sym rb,
          qualifiesB sym d = true ∧ d ∈ identTokens (rb.drop (eqIdx + 3)))
      ∧ ((extractDeps sym rb).take 10).length ≤ 10
      ∧ (∀ d ∈ (extractDeps sym rb).take 10,
          ((extractDeps sym rb).take 10).count d = 1) := by
  have hdef : extractDeps sym rb = depFold sym (identTokens (rb.drop (eqIdx + 3))) := by
    unfold extractDeps
    rw [heq]
  have h1 : extractDeps sym rb
      = dedupFirst ((identTokens (rb.drop (eqIdx + 3))).filter (qualifiesB sym)) := by
    rw [hdef, depFold_eq]
  have hnodup : (extractDeps sym rb).Nodup := by
    rw [h1]
    exact dedupAux_nodup _ [] List.nodup_nil
  refine ⟨h1, hnodup, ?_, List.length_take_le _ _, ?_⟩
  · intro d hd
    rw [h1] at hd
    unfold dedupFirst at hd
    rcases (dedupAux_mem _ [] d).mp hd with h | h
    · exact absurd h (List.not_mem_nil d)
    · exact ⟨(List.mem_filter.mp h).2, (List.mem_filter.mp h).1⟩
  · intro d hd
    have hsub : ((extractDeps sym rb).take 10).Nodup :=
      hnodup.sublist (List.take_sublist 10 _)
    exact List.count_eq_one_of_mem hsub hd

/-- Witness for claim C6 at the eleven-identifier assignment `c6rb`. -/
theorem claim6_witness :
    findSub eqTok c6rb 0 = some 13
      ∧ (extractDeps "x" c6rb).Nodup
      ∧ ((extractDeps "x" c6rb).take 10).length ≤ 10 :=
  ⟨by decide, ( claim6_theorem "x" c6rb 13 (by decide)).2.1,
    ( claim6_theorem "x" c6rb 13 (by decide)).2.2.2.1⟩

/-! ### Index assignment (claims C1, C9) -/

/-- First occurrence of a symbol in a definition list: its 0-based position
and the definition itself. -/
def firstIdx (s : String) : List PreDef → Option (Nat × PreDef)
  | [] => none
  | d :: rest =>
    if d.symbol = s then some (0, d)
    else (firstIdx s rest).map (fun kd => (kd.1 + 1, kd.2))

theorem lookupTbl_append_of_none {α : Type} (l₁ l₂ : List (String × α)) (s : String)
    (h : lookupTbl s l₁ = none) : lookupTbl s (l₁ ++ l₂) = lookupTbl s l₂ := by
  induction l₁ with
  | nil => rfl
  | cons p rest ih =>
    rw [lookupTbl] at h
    rw [List.cons_append, lookupTbl]
    by_cases hp : p.1 = s
    · rw [if_pos hp] at h
      exact absurd h (by simp)
    · rw [if_neg hp] at h ⊢
      exact ih h

theorem lookupTbl_append_of_some {α : Type} (l₁ l₂ : List (String × α)) (s : String)
    (v : α) (h : lookupTbl s l₁ = some v) : lookupTbl s (l₁ ++ l₂) = some v := by
  induction l₁ with
  | nil => simp [lookupTbl] at h
  | cons p rest ih =>
    rw [lookupTbl] at h
    rw [List.cons_append, lookupTbl]
    by_cases hp : p.1 = s
    · rw [if_pos hp] at h ⊢
      exact h
    · rw [if_neg hp] at h ⊢
      exact ih h

theorem lookupTbl_none_not_mem {α : Type} (l : List (String × α)) (s : String)
    (h : lookupTbl s l = none) : s ∉ l.map Prod.fst := by
  induction l with
  | nil => simp
  | cons p rest ih =>
    rw [lookupTbl] at h
    by_cases hp : p.1 = s
    · rw [if_pos hp] at h
      exact absurd h (by simp)
    · rw [if_neg hp] at h
      simp only [List.map_cons, List.mem_cons]
      push_neg
      exact ⟨fun hs => hp hs.symm, ih h⟩

theorem assignDefs_lookup :
    ∀ (defs : List PreDef) (idx : Nat) (table : List (String × SymInfo)) (s : String),
      lookupTbl s (assignDefs defs idx table)
        = match lookupTbl s table with
          | some v => some v
          | none => (firstIdx s defs).map (fun kd => mkSymInfo (idx + kd.1) kd.2) := by
  intro defs
  induction defs with
  | nil =>
    intro idx table s
    rw [assignDefs, firstIdx]
    cases lookupTbl s table <;> rfl
  | cons d rest ih =>
    intro idx table s
    rw [assignDefs]
    by_cases hds : d.symbol = s
    · cases hlt : lookupTbl s table with
      | some v =>
        have hsome : (lookupTbl d.symbol table).isSome = true := by
          rw [hds, hlt]; rfl
        rw [if_pos hsome, ih, hlt]
      | none =>
        have hnone : (lookupTbl d.symbol table).isSome = false := by
          rw [hds, hlt]; rfl
        rw [if_neg (by simp [hnone]), ih]
        have happ : lookupTbl s (table ++ [(d.symbol, mkSymInfo idx d)])
            = some (mkSymInfo idx d) := by
          rw [lookupTbl_append_of_none _ _ _ hlt, lookupTbl]
          rw [if_pos hds]
        rw [happ, firstIdx, if_pos hds]
        simp
    · have hkey : lookupTbl s (assignDefs rest (idx + 1)
          (if (lookupTbl d.symbol table).isSome = true then table
           else table ++ [(d.symbol, mkSymInfo idx d)]))
          = match lookupTbl s table with
            | some v => some v
            | none => (firstIdx s rest).map
                (fun kd => mkSymInfo (idx + 1 + kd.1) kd.2) := by
        by_cases hsome : (lookupTbl d.symbol table).isSome = true
        · rw [if_pos hsome, ih]
        · rw [if_neg hsome, ih]
          have happ : lookupTbl s (table ++ [(d.symbol, mkSymInfo idx d)])
              = lookupTbl s table := by
            cases hlt : lookupTbl s table with
            | some v => exact lookupTbl_append_of_some _ _ _ _ hlt
            | none =>
              rw [lookupTbl_append_of_none _ _ _ hlt, lookupTbl]
              rw [if_neg hds, lookupTbl]
          rw [happ]
      rw [hkey, firstIdx, if_neg hds]
      cases hlt : lookupTbl s table with
      | some v => rfl
      | none =>
        cases hfi : firstIdx s rest with
        | none => rfl
        | some kd =>
          simp only [Option.map_some, Option.map_map]
          have harith : idx + 1 + kd.1 = idx + (kd.1 + 1) := by omega
          simp [Function.comp, harith]

theorem assignDefs_keys_nodup :
    ∀ (defs : List PreDef) (idx : Nat) (table : List (String × SymInfo)),
      (table.map Prod.fst).Nodup → ((assignDefs defs idx table).map Prod.fst).Nodup := by
  intro defs
  induction defs with
  | nil => intro idx table h; exact h
  | cons d rest ih =>
    intro idx table h
    rw [assignDefs]
    by_cases hsome : (lookupTbl d.symbol table).isSome = true
    · rw [if_pos hsome]
      exact ih _ _ h
    · rw [if_neg hsome]
      refine ih _ _ ?_
      have hnone : lookupTbl d.symbol table = none := by
        cases hlt : lookupTbl d.symbol table with
        | none => rfl
        | some v => rw [hlt] at hsome; exact absurd rfl hsome
      have hnm := lookupTbl_none_not_mem table d.symbol hnone
      simp [List.nodup_append, h, hnm]

/-- Claim C1, amended: in the built table, each distinct defined symbol's
entry records the metadata of its **first** definition in the sorted
definition list — re-definitions never overwrite it — and its sequence
index is `1 +` the 0-based position of that first definition among **all**
extracted definitions (re-definitions included).  Hence indices are
strictly increasing in first-occurrence order and pairwise distinct, but a
re-definition consumes an index, so they form a permutation of `1..N`
only when no symbol is re-defined.  Each symbol keys at most one entry. -/
theorem claim1_theorem (content : List Char) (range : Option (Int × Int))
    (s : String) :
    lookupTbl s (parse_notebook_symbols content range)
        = (firstIdx s (sortedDefinitions content range)).map
            (fun kd => mkSymInfo (1 + kd.1) kd.2)
      ∧ ((parse_notebook_symbols content range).map Prod.fst).Nodup := by
  constructor
  · have h := assignDefs_lookup (sortedDefinitions content range) 1 [] s
    rw [parse_notebook_symbols]
    rw [h]
    rfl
  · exact assignDefs_keys_nodup _ 1 [] (by simp)

theorem firstIdx_spec (s : String) :
    ∀ (l : List PreDef) (k : Nat) (d : PreDef),
      firstIdx s l = some (k, d) →
      ∃ hk : k < l.length, l.get ⟨k, hk⟩ = d ∧ d.symbol = s
        ∧ ∀ (j : Nat) (hj : j < l.length), j < k → (l.get ⟨j, hj⟩).symbol ≠ s := by
  intro l
  induction l with
  | nil => intro k d h; simp [firstIdx] at h
  | cons d0 rest ih =>
    intro k d h
    rw [firstIdx] at h
    by_cases h0 : d0.symbol = s
    · rw [if_pos h0] at h
      obtain ⟨hk0, hd0⟩ : 0 = k ∧ d0 = d := by
        injection h with h2
        exact ⟨congrArg Prod.fst h2, congrArg Prod.snd h2⟩
      subst hk0
      subst hd0
      refine ⟨Nat.succ_pos _, rfl, h0, ?_⟩
      intro j hj hj0
      omega
    · rw [if_neg h0] at h
      cases hfi : firstIdx s rest with
      | none => rw [hfi] at h; simp at h
      | some kd =>
        rw [hfi] at h
        obtain ⟨hk1, hd1⟩ : kd.1 + 1 = k ∧ kd.2 = d := by
          injection h with h2
          exact ⟨congrArg Prod.fst h2, congrArg Prod.snd h2⟩
        obtain ⟨hklen, hget, hsym, hmin⟩ := ih kd.1 kd.2 (by rw [hfi])
        subst hk1
        subst hd1
        refine ⟨by simpa using Nat.succ_lt_succ hklen, by simpa using hget, hsym, ?_⟩
        intro j hj hjk
        cases j with
        | zero =>
          exact h0
        | succ j2 =>
          have hj2 : j2 < rest.length := by simpa using hj
          have hres := hmin j2 hj2 (by omega)
          simpa using hres

/-- Claim C9: in the built table, for any two distinct symbols whose first
definitions occur at document offsets with A strictly before B, the
assigned sequence indices satisfy `cell(A) < cell(B)`; moreover the first
definition found for each symbol in the sorted list really has the minimal
document offset among all of that symbol's extracted definitions. -/
theorem claim9_theorem (content : List Char) (range : Option (Int × Int))
    (A B : String) (iA iB : SymInfo) (kA kB : Nat) (dA dB : PreDef)
    (hA : lookupTbl A (parse_notebook_symbols content range) = some iA)
    (hB : lookupTbl B (parse_notebook_symbols content range) = some iB)
    (hfA : firstIdx A (sortedDefinitions content range) = some (kA, dA))
    (hfB : firstIdx B (sortedDefinitions content range) = some (kB, dB))
    (hpos : dA.pos < dB.pos) :
    iA.cell < iB.cell
      ∧ (∀ d ∈ allDefinitions content range, d.symbol = A → dA.pos ≤ d.pos)
      ∧ (∀ d ∈ allDefinitions content range, d.symbol = B → dB.pos ≤ d.pos) := by
  have hsorted : (sortedDefinitions content range).Sorted posLe := by
    rw [sortedDefinitions]
    exact List.sorted_insertionSort posLe _
  have hperm : (sortedDefinitions content range).Perm (allDefinitions content range) := by
    rw [sortedDefinitions]
    exact List.perm_insertionSort posLe _
  have hiA : iA = mkSymInfo (1 + kA) dA := by
    rw [parse_notebook_symbols] at hA
    rw [assignDefs_lookup (sortedDefinitions content range) 1 [] A] at hA
    have hA3 : (firstIdx A (sortedDefinitions content range)).map
        (fun kd => mkSymInfo (1 + kd.1) kd.2) = some iA := hA
    rw [hfA] at hA3
    simpa using hA3.symm
  have hiB : iB = mkSymInfo (1 + kB) dB := by
    rw [parse_notebook_symbols] at hB
    rw [assignDefs_lookup (sortedDefinitions content range) 1 [] B] at hB
    have hB3 : (firstIdx B (sortedDefinitions content range)).map
        (fun kd => mkSymInfo (1 + kd.1) kd.2) = some iB := hB
    rw [hfB] at hB3
    simpa using hB3.symm
  obtain ⟨hkA, hgetA, hsymA, hminA⟩ := firstIdx_spec A _ kA dA hfA
  obtain ⟨hkB, hgetB, hsymB, hminB⟩ := firstIdx_spec B _ kB dB hfB
  have hkk : kA < kB := by
    rcases Nat.lt_trichotomy kA kB with hlt | heq | hgt
    · exact hlt
    · exfalso
      have : dA = dB := by
        rw [← hgetA, ← hgetB]
        congr 1
        exact Fin.ext heq
      rw [this] at hpos
      omega
    · exfalso
      have hrel := hsorted.rel_get_of_lt
        (a := (⟨kB, hkB⟩ : Fin (sortedDefinitions content range).length))
        (b := ⟨kA, hkA⟩) hgt
      rw [hgetA, hgetB] at hrel
      unfold posLe at hrel
      omega
  refine ⟨?_, ?_, ?_⟩
  · rw [hiA, hiB]
    simp only [mkSymInfo]
    omega
  · intro d hd hdsym
    have hd2 : d ∈ sortedDefinitions content range := hperm.mem_iff.mpr hd
    obtain ⟨n, hn⟩ := List.mem_iff_get.mp hd2
    rcases Nat.lt_trichotomy n.1 kA with hlt | heq | hgt
    · exfalso
      have hthis := hminA n.1 n.2 hlt
      have heq2 : (sortedDefinitions content range).get ⟨n.1, n.2⟩ = d := hn
      rw [heq2] at hthis
      exact hthis hdsym
    · have : dA = d := by
        rw [← hgetA, ← hn]
        congr 1
        exact Fin.ext heq.symm
      rw [this]
    · have hrel := hsorted.rel_get_of_lt
        (a := (⟨kA, hkA⟩ : Fin (sortedDefinitions content range).length))
        (b := n) (by simpa using hgt)
      rw [hgetA, hn] at hrel
      exact hrel
  · intro d hd hdsym
    have hd2 : d ∈ sortedDefinitions content range := hperm.mem_iff.mpr hd
    obtain ⟨n, hn⟩ := List.mem_iff_get.mp hd2
    rcases Nat.lt_trichotomy n.1 kB with hlt | heq | hgt
    · exfalso
      have hthis := hminB n.1 n.2 hlt
      have heq2 : (sortedDefinitions content range).get ⟨n.1, n.2⟩ = d := hn
      rw [heq2] at hthis
      exact hthis hdsym
    · have : dB = d := by
        rw [← hgetB, ← hn]
        congr 1
        exact Fin.ext heq.symm
      rw [this]
    · have hrel := hsorted.rel_get_of_lt
        (a := (⟨kB, hkB⟩ : Fin (sortedDefinitions content range).length))
        (b := n) (by simpa using hgt)
      rw [hgetB, hn] at hrel
      exact hrel

/-- Witness for claim C9 at `docRedef`: `a` is first defined at offset 13,
`b` at offset 107, and the assigned indices satisfy `cell(a) < cell(b)`. -/
theorem claim9_witness :
    lookupTbl "a" (parse_notebook_symbols docRedef none)
        = some ⟨1, [], "variable", 1⟩
      ∧ firstIdx "a" (sortedDefinitions docRedef none)
          = some (0, ⟨"a", 13, [], "variable", 1⟩)
      ∧ firstIdx "b" (sortedDefinitions docRedef none)
          = some (2, ⟨"b", 107, ["a"], "variable", 1⟩)
      ∧ (⟨1, [], "variable", 1⟩ : SymInfo).cell < (⟨3, ["a"], "variable", 1⟩ : SymInfo).cell :=
  ⟨by decide, by decide, by decide,
    (claim9_theorem docRedef none "a" "b" ⟨1, [], "variable", 1⟩ ⟨3, ["a"], "variable", 1⟩
      0 2 ⟨"a", 13, [], "variable", 1⟩ ⟨"b", 107, ["a"], "variable", 1⟩
      (by decide) (by decide) (by decide) (by decide) (by decide)).1⟩

/-- Witness for claim C7 at the non-builtin deferred definition `f[x_] := x`. -/
theorem claim7_witness :
    hasSub delayTok rbFn = true
      ∧ BUILTINS.contains "f" = false
      ∧ classifyCand "f" rbFn = some ("function", []) :=
  ⟨by decide, by decide, ( claim7_theorem "f" rbFn (by decide) (by decide)).1⟩

/-- Witness for claim C10 at a concrete input. -/
theorem claim10_witness :
    extract_definitions "dummy"
      = Except.error (PyError.notImplementedError "TODO: implement") :=
  ( claim10_theorem "dummy").1
